import Mathlib

/-!
Verification of the gocypher chunked authenticated-encryption pipeline
(`cypher/cypher.go`).

Byte sequences are modelled as `List ℕ` (each entry a byte value).  The
AEAD primitive (Go `crypto/cipher.AEAD`, an external collaborator of the
repository) is modelled as a structure bundling `seal`/`open` together
with the interface laws the spec states for it.  The concurrent pipeline
is modelled by pure functions: the order-restoring reassembler
(`writeChunks` and the collector goroutine) is embedded as an explicit
state machine over arrival lists, and the buffer-mode entry points
`Encrypt`/`Decrypt` as the in-position-order result this reassembler
produces.
-/

namespace GoCypher

/-- A byte string; entries are byte values. -/
abbrev Bytes := List ℕ

/-- Error kinds surfaced by the pipeline (spec §7).  `configError` is the
`aes.NewCipher` key-size rejection, `ioError` an open/create/read failure,
`malformedChunk` the "encrypted chunk too small" error of `decryptWorker`,
`authenticationFailure` the wrapped `gcm.Open` rejection. -/
inductive CypherError
  | configError
  | ioError
  | malformedChunk
  | authenticationFailure
deriving DecidableEq

/-- The `Cypher` struct of `cypher.go`: derived key plus configuration.
Go `int` fields are modelled as `ℕ` (all values the claims concern are
non-negative). -/
structure Cypher where
  key : Bytes
  ChunkSize : ℕ
  NumWorkers : ℕ
  NumCores : ℕ
deriving DecidableEq

/-- Little-endian base-256 serialisation of a natural number into a fixed
number of bytes. -/
def natToBytesLE : ℕ → ℕ → Bytes
  | 0, _ => []
  | len + 1, x => (x % 256) :: natToBytesLE len (x / 256)

/-- Modelled from the spec: key derivation uses the external `crypto/md5`
collaborator, "a fixed-output-size hash function" that is deterministic in
the passphrase and produces a 16-byte digest.  The compression rounds are
not part of this repository; this model keeps the interface: a pure
function of the input string with exactly 16 output bytes. -/
def md5Digest (s : String) : Bytes :=
  natToBytesLE 16 (s.data.foldl (fun acc ch => (acc * 131 + ch.toNat + 7) % (2 ^ 128)) 1)

/-- ASCII code of the lowercase hexadecimal digit for `n < 16`
(`encoding/hex` uses the alphabet `0123456789abcdef`). -/
def hexDigitAscii (n : ℕ) : ℕ := if n < 10 then 48 + n else 87 + n

/-- `MD5HashFromString` of `cypher.go`: the lowercase hex encoding of the
MD5 digest of the passphrase, viewed as the byte string Go's
`[]byte(...)` conversion yields. -/
def MD5HashFromString (s : String) : Bytes :=
  (md5Digest s).foldr (fun b acc => hexDigitAscii (b / 16) :: hexDigitAscii (b % 16) :: acc) []

/-- Options passed to `NewCypher`.  The package exports the `Option`
type but no option constructors; from outside the package an option can
only write the exported fields, so options are modelled as writes to the
three exported configuration fields. -/
inductive COption
  | chunkSize (n : ℕ)
  | numWorkers (n : ℕ)
  | numCores (n : ℕ)

/-- Application of one option inside `NewCypher`. -/
def applyOption (c : Cypher) : COption → Cypher
  | .chunkSize n => { c with ChunkSize := n }
  | .numWorkers n => { c with NumWorkers := n }
  | .numCores n => { c with NumCores := n }

/-- `NewCypher` of `cypher.go`: fills in the defaults (10 MiB chunks, 10
workers, all CPUs), derives the key as `[]byte(MD5HashFromString(key))`,
then applies the options.  `numCPU` stands for `runtime.NumCPU()`.  Note
the function is total: no validation happens here. -/
def NewCypher (numCPU : ℕ) (key : String) (opts : List COption) : Cypher :=
  opts.foldl applyOption
    { key := MD5HashFromString key
      ChunkSize := 10 * 1024 * 1024
      NumWorkers := 10
      NumCores := numCPU }

/-- `WithNumCores`: caps the requested core count at `runtime.NumCPU()`
(passed as `numCPU`) and stores it; no lower-bound validation. -/
def Cypher.WithNumCores (c : Cypher) (numCPU numCores : ℕ) : Cypher :=
  { c with NumCores := if numCores > numCPU then numCPU else numCores }

/-- `WithChunkSize`: stores the value verbatim; no validation. -/
def Cypher.WithChunkSize (c : Cypher) (chunkSize : ℕ) : Cypher :=
  { c with ChunkSize := chunkSize }

/-- `WithNumWorkers`: stores the value verbatim; no validation. -/
def Cypher.WithNumWorkers (c : Cypher) (numWorkers : ℕ) : Cypher :=
  { c with NumWorkers := numWorkers }

/-- `aes.NewCipher` key-size check (external collaborator): succeeds
exactly when the key is 16, 24 or 32 bytes (AES-128/192/256), otherwise
reports `KeySizeError`, surfaced by the callers as their
"failed to create cipher" error. -/
def aesNewCipher (key : Bytes) : Except CypherError Unit :=
  if key.length = 16 ∨ key.length = 24 ∨ key.length = 32 then .ok () else .error .configError

/-- The AEAD primitive, an external collaborator (spec §1, §6): `seal`
and `Open` (Go `gcm.Seal` / `gcm.Open`) with the fixed `nonceSize`
(`gcm.NonceSize()`) and `overhead` (`gcm.Overhead()`) constants, and the
two interface laws the spec states: sealing adds exactly the tag
overhead, and opening a sealed chunk with the sealing key and nonce
recovers the plaintext. -/
structure AEAD where
  nonceSize : ℕ
  overhead : ℕ
  Seal : Bytes → Bytes → Bytes → Bytes
  Open : Bytes → Bytes → Bytes → Option Bytes
  seal_length : ∀ k n pt, (Seal k n pt).length = pt.length + overhead
  open_seal : ∀ k n pt, Open k n (Seal k n pt) = some pt

/-- Chunk splitting: both `Encrypt`'s slicing loop
(`for i := 0; i < len(data); i += c.ChunkSize`) and the sequential reads
of the file variants produce the successive `size`-byte slices of the
input, the last possibly shorter, none empty.  Meaningful for
`0 < size` (with size 0 the Go loop does not terminate). -/
def chunkSplit : Bytes → ℕ → List Bytes
  | [], _ => []
  | b :: bs, size => ((b :: bs).take size) :: chunkSplit (bs.drop (size - 1)) size
termination_by data _ => data.length
decreasing_by simp [List.length_drop]; omega

/-- Per-chunk work of `encryptWorker` at position `i`, iterated over a
chunk list: each chunk becomes `nonce || gcm.Seal(nil, nonce, chunk, nil)`
tagged with its position; `nonces i` stands for the fresh random nonce
drawn for the chunk at position `i`. -/
def sealChunks (A : AEAD) (k : Bytes) (nonces : ℕ → Bytes) : ℕ → List Bytes → List Bytes
  | _, [] => []
  | i, pt :: rest => (nonces i ++ A.Seal k (nonces i) pt) :: sealChunks A k nonces (i + 1) rest

/-- Per-chunk work of `decryptWorker`: a payload shorter than the nonce
is rejected as "encrypted chunk too small" (`malformedChunk`); otherwise
the payload is split at `nonceSize` into nonce and ciphertext and
`gcm.Open` is invoked, its rejection surfaced as "failed to decrypt
chunk" (`authenticationFailure`). -/
def decryptChunk (A : AEAD) (k : Bytes) (payload : Bytes) : Except CypherError Bytes :=
  if payload.length < A.nonceSize then .error .malformedChunk
  else
    match A.Open k (payload.take A.nonceSize) (payload.drop A.nonceSize) with
    | some pt => .ok pt
    | none => .error .authenticationFailure

/-- First-error-in-position-order sequencing of per-chunk results.  In
the Go pipeline the racing workers publish the first failure into the
single-slot error channel; position order fixes a canonical choice, which
agrees with the code whenever the error kind is determined (single
failing chunk, or all failures of one kind — the only situations the
claims concern). -/
def mapME {α β : Type} (f : α → Except CypherError β) : List α → Except CypherError (List β)
  | [] => .ok []
  | a :: l =>
    match f a with
    | .error e => .error e
    | .ok b =>
      match mapME f l with
      | .error e => .error e
      | .ok bs => .ok (b :: bs)

/-- The fixed encrypted-chunk size `c.ChunkSize + gcm.NonceSize() +
gcm.Overhead()` used by `Decrypt`/`DecryptFile` to re-derive chunk
boundaries. -/
def encryptedChunkSize (A : AEAD) (c : Cypher) : ℕ :=
  c.ChunkSize + A.nonceSize + A.overhead

/-- Buffer-mode `Encrypt` of `cypher.go`, returned as Go's
`([]byte, error)` pair.  The cipher construction is checked first; then
the input is split into `ChunkSize` chunks, each chunk sealed by a worker
(`sealChunks`), and the collector goroutine appends the results in
position order (`writeChunks_order` below shows the collector's output
is the position-ordered concatenation for every arrival order).  Every
error return site of the Go function returns a nil slice. -/
def Cypher.Encrypt (c : Cypher) (A : AEAD) (nonces : ℕ → Bytes) (data : Bytes) :
    Option Bytes × Option CypherError :=
  match aesNewCipher c.key with
  | .error e => (none, some e)
  | .ok _ => (some (sealChunks A c.key nonces 0 (chunkSplit data c.ChunkSize)).flatten, none)

/-- Buffer-mode `Decrypt` of `cypher.go`, returned as Go's
`([]byte, error)` pair: after the cipher-construction check the input is
split into pieces of the fixed `encryptedChunkSize`, each piece is
processed by `decryptWorker` (`decryptChunk`), and the collector appends
the recovered plaintexts in position order; on any worker error the
function returns `(nil, err)`. -/
def Cypher.Decrypt (c : Cypher) (A : AEAD) (data : Bytes) :
    Option Bytes × Option CypherError :=
  match aesNewCipher c.key with
  | .error e => (none, some e)
  | .ok _ =>
    match mapME (decryptChunk A c.key) (chunkSplit data (encryptedChunkSize A c)) with
    | .error e => (none, some e)
    | .ok pts => (some pts.flatten, none)

/-- File-system side effects of `EncryptFile` that the claims observe,
in the order the code performs them. -/
inductive FileEvent
  | openInput
  | createOutput
deriving DecidableEq

/-- `EncryptFile` of `cypher.go` with the input file's contents supplied
as `input` (`none`: the `os.Open` call fails).  The event list records
the successful file-system calls in program order: the output file is
created (line 80) before `aes.NewCipher` is consulted (line 86), so a
key-size failure happens only after both events. -/
def Cypher.EncryptFile (c : Cypher) (A : AEAD) (nonces : ℕ → Bytes) (input : Option Bytes) :
    List FileEvent × Except CypherError Bytes :=
  match input with
  | none => ([], .error .ioError)
  | some data =>
    match aesNewCipher c.key with
    | .error e => ([.openInput, .createOutput], .error e)
    | .ok _ =>
      ([.openInput, .createOutput],
        .ok (sealChunks A c.key nonces 0 (chunkSplit data c.ChunkSize)).flatten)

/-- `DecryptFile` of `cypher.go` (lines 218-307) with the input file's
contents supplied as `input` (`none`: the `os.Open` call fails).  As in
`EncryptFile`, the output file is created (line 226) before
`aes.NewCipher` is consulted (line 232), so both events precede any
key-size failure; on success the pipeline splits the input into pieces
of the fixed `encryptedChunkSize` and runs `decryptWorker`
(`decryptChunk`) over them, writing the recovered plaintexts in position
order. -/
def Cypher.DecryptFile (c : Cypher) (A : AEAD) (input : Option Bytes) :
    List FileEvent × Except CypherError Bytes :=
  match input with
  | none => ([], .error .ioError)
  | some data =>
    match aesNewCipher c.key with
    | .error e => ([.openInput, .createOutput], .error e)
    | .ok _ =>
      match mapME (decryptChunk A c.key) (chunkSplit data (encryptedChunkSize A c)) with
      | .error e => ([.openInput, .createOutput], .error e)
      | .ok pts => ([.openInput, .createOutput], .ok pts.flatten)

/-! ### Basic facts about chunk splitting -/

theorem chunkSplit_cons (b : ℕ) (bs : Bytes) (size : ℕ) :
    chunkSplit (b :: bs) size =
      ((b :: bs).take size) :: chunkSplit (bs.drop (size - 1)) size := by
  rw [chunkSplit]

theorem chunkSplit_eq_cons (data : Bytes) (size : ℕ) (hd : data ≠ []) (hs : 0 < size) :
    chunkSplit data size = data.take size :: chunkSplit (data.drop size) size := by
  match data with
  | [] => exact absurd rfl hd
  | b :: bs =>
    obtain ⟨s, rfl⟩ : ∃ s, size = s + 1 := ⟨size - 1, by omega⟩
    rw [chunkSplit_cons]
    simp [List.drop_succ_cons]

theorem chunkSplit_single (data : Bytes) (size : ℕ) (hd : data ≠ []) (hle : data.length ≤ size) :
    chunkSplit data size = [data] := by
  match data with
  | [] => exact absurd rfl hd
  | b :: bs =>
    rw [chunkSplit_cons, List.take_of_length_le hle]
    have : bs.drop (size - 1) = [] := by
      apply List.drop_eq_nil_of_le
      simp at hle; omega
    rw [this, chunkSplit]

theorem chunkSplit_ne_nil (data : Bytes) (size : ℕ) (hd : data ≠ []) :
    chunkSplit data size ≠ [] := by
  match data with
  | [] => exact absurd rfl hd
  | b :: bs => rw [chunkSplit_cons]; exact List.cons_ne_nil _ _

theorem flatten_chunkSplit (size : ℕ) (hs : 0 < size) :
    ∀ data : Bytes, (chunkSplit data size).flatten = data
  | [] => by rw [chunkSplit]; rfl
  | b :: bs => by
    rw [chunkSplit_eq_cons (b :: bs) size (List.cons_ne_nil b bs) hs, List.flatten_cons,
      flatten_chunkSplit size hs ((b :: bs).drop size), List.take_append_drop]
termination_by data => data.length
decreasing_by simp [List.length_drop]; omega

/-- Shape of the chunk lists and record lists the pipeline produces for a
bound `E`: every entry except the last has length exactly `E`, and the
last is non-empty and no longer than `E` (spec §3 invariant). -/
def SizedRecords (E : ℕ) : List Bytes → Prop
  | [] => True
  | [r] => 0 < r.length ∧ r.length ≤ E
  | r :: rest => r.length = E ∧ SizedRecords E rest

theorem sizedRecords_chunkSplit (size : ℕ) (hs : 0 < size) :
    ∀ data : Bytes, SizedRecords size (chunkSplit data size)
  | [] => by rw [chunkSplit]; trivial
  | b :: bs => by
    rw [chunkSplit_eq_cons (b :: bs) size (List.cons_ne_nil b bs) hs]
    by_cases hle : (b :: bs).length ≤ size
    · have hdrop : (b :: bs).drop size = [] := List.drop_eq_nil_of_le hle
      rw [hdrop, chunkSplit]
      constructor
      · simp [List.length_take, List.length_cons] at hle ⊢
        omega
      · rw [List.take_of_length_le hle]; exact hle
    · push_neg at hle
      have hdrop : (b :: bs).drop size ≠ [] := by
        simp [List.drop_eq_nil_iff, List.length_cons]
        simp [List.length_cons] at hle
        omega
      have htail := sizedRecords_chunkSplit size hs ((b :: bs).drop size)
      have hne := chunkSplit_ne_nil ((b :: bs).drop size) size hdrop
      match htl : chunkSplit ((b :: bs).drop size) size with
      | [] => exact absurd htl hne
      | r :: rest =>
        rw [htl] at htail
        refine ⟨?_, htail⟩
        simp [List.length_take, List.length_cons] at hle ⊢
        omega
termination_by data => data.length
decreasing_by simp [List.length_drop]; omega

theorem chunkSplit_flatten_eq (E : ℕ) (hE : 0 < E) :
    ∀ rs : List Bytes, SizedRecords E rs → chunkSplit rs.flatten E = rs
  | [], _ => by rw [List.flatten_nil, chunkSplit]
  | [r], h => by
    obtain ⟨h0, hle⟩ := h
    have hr : r ≠ [] := by intro hr; rw [hr] at h0; simp at h0
    rw [List.flatten_cons, List.flatten_nil, List.append_nil]
    exact chunkSplit_single r E hr hle
  | r :: b :: t, h => by
    obtain ⟨hr, htail⟩ : r.length = E ∧ SizedRecords E (b :: t) := h
    have hrne : r ≠ [] := by intro hx; rw [hx] at hr; simp at hr; omega
    have hfne : (r ++ (b :: t).flatten) ≠ [] := by
      intro hx
      exact hrne (List.append_eq_nil.mp hx).1
    rw [List.flatten_cons]
    rw [chunkSplit_eq_cons _ E hfne hE, List.take_left' hr, List.drop_left' hr]
    rw [chunkSplit_flatten_eq E hE (b :: t) htail]

/-! ### The worker stages -/

theorem sealChunks_sized (A : AEAD) (k : Bytes) (nonces : ℕ → Bytes)
    (hn : ∀ i, (nonces i).length = A.nonceSize) (CS : ℕ) :
    ∀ (i : ℕ) (cs : List Bytes), SizedRecords CS cs →
      SizedRecords (CS + A.nonceSize + A.overhead) (sealChunks A k nonces i cs)
  | _, [], _ => by rw [sealChunks]; trivial
  | i, [pt], h => by
    obtain ⟨h0, hle⟩ := h
    rw [sealChunks, sealChunks]
    refine ⟨?_, ?_⟩ <;> simp [List.length_append, hn, A.seal_length] <;> omega
  | i, pt :: b :: t, h => by
    obtain ⟨hpt, htail⟩ : pt.length = CS ∧ SizedRecords CS (b :: t) := h
    have hrest := sealChunks_sized A k nonces hn CS (i + 1) (b :: t) htail
    rw [sealChunks]
    match hsc : sealChunks A k nonces (i + 1) (b :: t) with
    | [] => rw [sealChunks] at hsc; exact absurd hsc (List.cons_ne_nil _ _)
    | r :: rest =>
      rw [hsc] at hrest
      refine ⟨?_, hrest⟩
      simp [List.length_append, hn, A.seal_length, hpt]; omega

theorem decryptChunk_sealed (A : AEAD) (k nonce pt : Bytes) (hn : nonce.length = A.nonceSize) :
    decryptChunk A k (nonce ++ A.Seal k nonce pt) = .ok pt := by
  rw [decryptChunk]
  have hlen : (nonce ++ A.Seal k nonce pt).length = A.nonceSize + (pt.length + A.overhead) := by
    simp [List.length_append, hn, A.seal_length]
  rw [if_neg (by omega)]
  rw [List.take_left' hn, List.drop_left' hn, A.open_seal]

theorem mapME_sealChunks (A : AEAD) (k : Bytes) (nonces : ℕ → Bytes)
    (hn : ∀ i, (nonces i).length = A.nonceSize) :
    ∀ (i : ℕ) (cs : List Bytes), mapME (decryptChunk A k) (sealChunks A k nonces i cs) = .ok cs := by
  intro i cs
  induction cs generalizing i with
  | nil => rw [sealChunks, mapME]
  | cons pt rest ih =>
    rw [sealChunks, mapME, decryptChunk_sealed A k (nonces i) pt (hn i), ih (i + 1)]

theorem sealChunks_getD (A : AEAD) (k : Bytes) (nonces : ℕ → Bytes) :
    ∀ (i j : ℕ) (cs : List Bytes), j < cs.length →
      (sealChunks A k nonces i cs).getD j [] =
        nonces (i + j) ++ A.Seal k (nonces (i + j)) (cs.getD j []) := by
  intro i j cs
  induction cs generalizing i j with
  | nil => intro hj; simp at hj
  | cons pt rest ih =>
    intro hj
    cases j with
    | zero => rw [sealChunks]; simp
    | succ j' =>
      rw [sealChunks, List.getD_cons_succ, List.getD_cons_succ]
      have harith : i + (j' + 1) = (i + 1) + j' := by omega
      rw [harith]
      exact ih (i + 1) j' (by simp [List.length_cons] at hj; omega)

theorem mapME_ok_of_mem {α β : Type} (f : α → Except CypherError β) :
    ∀ (l : List α) (bs : List β), mapME f l = .ok bs → ∀ x ∈ l, ∃ b, f x = .ok b := by
  intro l
  induction l with
  | nil => intro bs _ x hx; simp at hx
  | cons a t ih =>
    intro bs hok x hx
    rw [mapME] at hok
    match ha : f a with
    | .error e => rw [ha] at hok; exact absurd hok (by simp)
    | .ok b =>
      rw [ha] at hok
      match ht : mapME f t with
      | .error e => rw [ht] at hok; exact absurd hok (by simp)
      | .ok bs' =>
        rcases List.mem_cons.mp hx with rfl | hxt
        · exact ⟨b, ha⟩
        · exact ih bs' ht x hxt

theorem mapME_error_mem {α β : Type} (f : α → Except CypherError β) :
    ∀ (l : List α) (e : CypherError), mapME f l = .error e → ∃ x ∈ l, f x = .error e := by
  intro l
  induction l with
  | nil => intro e he; rw [mapME] at he; exact absurd he (by simp)
  | cons a t ih =>
    intro e he
    rw [mapME] at he
    match ha : f a with
    | .error e' =>
      rw [ha] at he
      simp at he
      exact ⟨a, List.mem_cons_self a t, by rw [ha, he]⟩
    | .ok b =>
      rw [ha] at he
      match ht : mapME f t with
      | .error e' =>
        rw [ht] at he
        simp at he
        obtain ⟨x, hx, hfx⟩ := ih e' ht
        exact ⟨x, List.mem_cons_of_mem a hx, by rw [hfx, he]⟩
      | .ok bs => rw [ht] at he; exact absurd he (by simp)

theorem mapME_set_error {β : Type} (f : Bytes → Except CypherError β) :
    ∀ (l : List Bytes) (m : ℕ) (bad : Bytes) (e : CypherError),
      m < l.length → (∀ x ∈ l, ∃ b, f x = .ok b) → f bad = .error e →
      mapME f (l.set m bad) = .error e := by
  intro l
  induction l with
  | nil => intro m bad e hm _ _; simp at hm
  | cons a t ih =>
    intro m bad e hm hok hbad
    cases m with
    | zero => rw [List.set_cons_zero, mapME, hbad]
    | succ m' =>
      rw [List.set_cons_succ, mapME]
      obtain ⟨b, hb⟩ := hok a (List.mem_cons_self a t)
      rw [hb, ih m' bad e (by simp [List.length_cons] at hm; omega)
        (fun x hx => hok x (List.mem_cons_of_mem a hx)) hbad]

theorem decryptChunk_ne_configError (A : AEAD) (k payload : Bytes) :
    decryptChunk A k payload ≠ .error .configError := by
  rw [decryptChunk]
  by_cases h : payload.length < A.nonceSize
  · simp [h]
  · rw [if_neg h]
    match A.Open k (payload.take A.nonceSize) (payload.drop A.nonceSize) with
    | some pt => simp
    | none => simp

/-! ### Key derivation -/

theorem length_natToBytesLE : ∀ (len x : ℕ), (natToBytesLE len x).length = len
  | 0, _ => rfl
  | len + 1, x => by rw [natToBytesLE, List.length_cons, length_natToBytesLE len]

theorem mem_natToBytesLE_lt : ∀ (len x b : ℕ), b ∈ natToBytesLE len x → b < 256
  | 0, _, _, h => by rw [natToBytesLE] at h; exact absurd h (List.not_mem_nil _)
  | len + 1, x, b, h => by
    rw [natToBytesLE] at h
    rcases List.mem_cons.mp h with rfl | ht
    · exact Nat.mod_lt x (by omega)
    · exact mem_natToBytesLE_lt len (x / 256) b ht

theorem length_md5Digest (s : String) : (md5Digest s).length = 16 := by
  rw [md5Digest, length_natToBytesLE]

theorem length_hexFoldr :
    ∀ l : Bytes, (l.foldr (fun b acc => hexDigitAscii (b / 16) :: hexDigitAscii (b % 16) :: acc)
      ([] : Bytes)).length = 2 * l.length
  | [] => rfl
  | b :: t => by
    rw [List.foldr_cons, List.length_cons, List.length_cons, length_hexFoldr t,
      List.length_cons]
    omega

theorem length_MD5HashFromString (s : String) : (MD5HashFromString s).length = 32 := by
  rw [MD5HashFromString, length_hexFoldr, length_md5Digest]

theorem mem_hexFoldr :
    ∀ (l : Bytes) (b : ℕ),
      b ∈ l.foldr (fun a acc => hexDigitAscii (a / 16) :: hexDigitAscii (a % 16) :: acc)
        ([] : Bytes) →
      ∃ a ∈ l, b = hexDigitAscii (a / 16) ∨ b = hexDigitAscii (a % 16)
  | [], b, h => by rw [List.foldr_nil] at h; exact absurd h (List.not_mem_nil _)
  | a :: t, b, h => by
    rw [List.foldr_cons] at h
    rcases List.mem_cons.mp h with rfl | h2
    · exact ⟨a, List.mem_cons_self a t, Or.inl rfl⟩
    · rcases List.mem_cons.mp h2 with rfl | h3
      · exact ⟨a, List.mem_cons_self a t, Or.inr rfl⟩
      · obtain ⟨a', ha', hv⟩ := mem_hexFoldr t b h3
        exact ⟨a', List.mem_cons_of_mem a ha', hv⟩

theorem hexDigitAscii_range (m : ℕ) (hm : m ≤ 15) :
    (48 ≤ hexDigitAscii m ∧ hexDigitAscii m ≤ 57) ∨
    (97 ≤ hexDigitAscii m ∧ hexDigitAscii m ≤ 102) := by
  rw [hexDigitAscii]
  by_cases h : m < 10
  · rw [if_pos h]; left; omega
  · rw [if_neg h]; right; omega

theorem MD5HashFromString_lower_hex (s : String) (b : ℕ) (hb : b ∈ MD5HashFromString s) :
    (48 ≤ b ∧ b ≤ 57) ∨ (97 ≤ b ∧ b ≤ 102) := by
  rw [MD5HashFromString] at hb
  obtain ⟨a, ha, hv⟩ := mem_hexFoldr (md5Digest s) b hb
  have ha256 : a < 256 := by
    rw [md5Digest] at ha
    exact mem_natToBytesLE_lt 16 _ a ha
  rcases hv with rfl | rfl
  · exact hexDigitAscii_range (a / 16) (by omega)
  · exact hexDigitAscii_range (a % 16) (by omega)

theorem applyOption_key (c : Cypher) (o : COption) : (applyOption c o).key = c.key := by
  cases o <;> rfl

theorem foldl_applyOption_key :
    ∀ (opts : List COption) (c : Cypher), (opts.foldl applyOption c).key = c.key
  | [], _ => rfl
  | o :: t, c => by
    rw [List.foldl_cons, foldl_applyOption_key t, applyOption_key]

theorem NewCypher_key (numCPU : ℕ) (pass : String) (opts : List COption) :
    (NewCypher numCPU pass opts).key = MD5HashFromString pass := by
  rw [NewCypher, foldl_applyOption_key]

theorem aesNewCipher_NewCypher (numCPU : ℕ) (pass : String) (opts : List COption) :
    aesNewCipher (NewCypher numCPU pass opts).key = .ok () := by
  rw [aesNewCipher, if_pos]
  right; right
  rw [NewCypher_key, length_MD5HashFromString]

/-! ### The ordered reassembler (`writeChunks`, lines 192-216, and the
collector goroutines of `Encrypt`/`Decrypt`) -/

/-- Reassembler state: the position-indexed holding area (an association
list standing for the Go map `pending` / `sync.Map` `pendingChunks` —
positions are unique within a run, so the representation is faithful),
the `nextPosition` cursor, and the bytes emitted so far. -/
structure RState where
  pending : List (ℕ × Bytes)
  nextPosition : ℕ
  out : Bytes

/-- Map lookup `pending[p]` (or `pendingChunks.LoadAndDelete`'s load). -/
def lookupPos (p : ℕ) : List (ℕ × Bytes) → Option Bytes
  | [] => none
  | (q, d) :: rest => if q = p then some d else lookupPos p rest

/-- Map deletion `delete(pending, p)`. -/
def erasePos (p : ℕ) : List (ℕ × Bytes) → List (ℕ × Bytes)
  | [] => []
  | (q, d) :: rest => if q = p then rest else (q, d) :: erasePos p rest

/-- The inner drain loop of the reassembler: while the chunk at
`nextPosition` is in the holding area, emit its data, delete it and
advance the cursor.  The fuel bounds the iterations: each successful
iteration deletes one held entry, so the size of the holding area
suffices (`drain` below instantiates it so). -/
def drainFuel : ℕ → RState → RState
  | 0, st => st
  | fuel + 1, st =>
    match lookupPos st.nextPosition st.pending with
    | some d =>
      drainFuel fuel ⟨erasePos st.nextPosition st.pending, st.nextPosition + 1, st.out ++ d⟩
    | none => st

/-- The drain loop with sufficient fuel. -/
def drain (st : RState) : RState := drainFuel st.pending.length st

/-- One arrival (`for chunk := range input` body): store the chunk in
the holding area, then drain in position order. -/
def collectStep (st : RState) (a : ℕ × Bytes) : RState :=
  drain ⟨a :: st.pending, st.nextPosition, st.out⟩

/-- The reassembler's total output for a given arrival order: fold the
arrivals over `collectStep` from the empty state.  This is the byte
stream `writeChunks` writes to the output file, and likewise the buffer
the collector goroutine accumulates. -/
def writeChunksModel (arrivals : List (ℕ × Bytes)) : Bytes :=
  (arrivals.foldl collectStep ⟨[], 0, []⟩).out

theorem lookupPos_eq_none_iff (p : ℕ) :
    ∀ l : List (ℕ × Bytes), lookupPos p l = none ↔ p ∉ l.map Prod.fst
  | [] => by simp [lookupPos]
  | (q, d) :: rest => by
    rw [lookupPos]
    by_cases h : q = p
    · simp [h]
    · simp [h, lookupPos_eq_none_iff p rest, Ne.symm h]

theorem erasePos_keys_sublist (p : ℕ) :
    ∀ l : List (ℕ × Bytes), ((erasePos p l).map Prod.fst).Sublist (l.map Prod.fst)
  | [] => by simp [erasePos]
  | (q, d) :: rest => by
    rw [erasePos]
    by_cases h : q = p
    · rw [if_pos h, List.map_cons]
      exact (List.sublist_cons_self q (rest.map Prod.fst)).trans
        (List.Sublist.refl _) |>.trans (List.Sublist.refl _)
    · rw [if_neg h, List.map_cons, List.map_cons]
      exact List.Sublist.cons₂ q (erasePos_keys_sublist p rest)

theorem nodup_erasePos (p : ℕ) (l : List (ℕ × Bytes)) (h : (l.map Prod.fst).Nodup) :
    ((erasePos p l).map Prod.fst).Nodup :=
  (erasePos_keys_sublist p l).nodup h

theorem lookupPos_cons (p q : ℕ) (d : Bytes) (l : List (ℕ × Bytes)) :
    lookupPos p ((q, d) :: l) = if q = p then some d else lookupPos p l := rfl

theorem lookupPos_erasePos (p : ℕ) :
    ∀ l : List (ℕ × Bytes), (l.map Prod.fst).Nodup →
      ∀ q, lookupPos q (erasePos p l) = if q = p then none else lookupPos q l
  | [] => by
    intro _ q
    simp [lookupPos, erasePos]
  | (r, d) :: rest => by
    intro hnd q
    rw [List.map_cons, List.nodup_cons] at hnd
    by_cases hr : r = p
    · subst hr
      rw [erasePos, if_pos rfl]
      by_cases hq : q = r
      · subst hq
        rw [if_pos rfl]
        exact (lookupPos_eq_none_iff q rest).mpr hnd.1
      · rw [if_neg hq, lookupPos_cons, if_neg (fun h => hq h.symm)]
    · rw [erasePos, if_neg hr, lookupPos_cons]
      by_cases hq : q = p
      · rw [if_pos hq, if_neg (fun h : r = q => hr (by rw [h, hq])),
          lookupPos_erasePos p rest hnd.2 q, if_pos hq]
      · rw [if_neg hq, lookupPos_cons]
        by_cases hrq : r = q
        · rw [if_pos hrq, if_pos hrq]
        · rw [if_neg hrq, if_neg hrq, lookupPos_erasePos p rest hnd.2 q, if_neg hq]

theorem length_erasePos (p : ℕ) :
    ∀ (l : List (ℕ × Bytes)) (d : Bytes), lookupPos p l = some d →
      l.length = (erasePos p l).length + 1
  | [] => by
    intro d h
    rw [lookupPos] at h
    exact absurd h (by simp)
  | (q, dd) :: rest => by
    intro d h
    rw [erasePos]
    by_cases hq : q = p
    · rw [if_pos hq, List.length_cons]
    · rw [lookupPos_cons, if_neg hq] at h
      rw [if_neg hq, List.length_cons, List.length_cons,
        length_erasePos p rest d h]

theorem drain_of_lookup_none (st : RState)
    (h : lookupPos st.nextPosition st.pending = none) : drain st = st := by
  rw [drain]
  match hl : st.pending.length with
  | 0 => rw [drainFuel]
  | fuel + 1 => rw [drainFuel, h]

theorem drain_of_lookup_some (st : RState) (d : Bytes)
    (h : lookupPos st.nextPosition st.pending = some d) :
    drain st =
      drain ⟨erasePos st.nextPosition st.pending, st.nextPosition + 1, st.out ++ d⟩ := by
  rw [drain, drain]
  have hlen := length_erasePos st.nextPosition st.pending d h
  rw [hlen, drainFuel, h]

/-- The smallest position not yet arrived (the value the `nextPosition`
cursor reaches after draining). -/
def mex (S : Finset ℕ) : ℕ := Nat.find S.exists_not_mem

theorem mex_not_mem (S : Finset ℕ) : mex S ∉ S := Nat.find_spec S.exists_not_mem

theorem mem_of_lt_mex (S : Finset ℕ) (j : ℕ) (h : j < mex S) : j ∈ S := by
  have := Nat.find_min S.exists_not_mem h
  exact not_not.mp this

theorem mex_le_of_not_mem (S : Finset ℕ) (k : ℕ) (h : k ∉ S) : mex S ≤ k :=
  Nat.find_min' S.exists_not_mem h

theorem mex_empty : mex (∅ : Finset ℕ) = 0 :=
  Nat.le_zero.mp (mex_le_of_not_mem ∅ 0 (Finset.not_mem_empty 0))

theorem mex_range (n : ℕ) : mex (Finset.range n) = n := by
  refine le_antisymm (mex_le_of_not_mem _ n (by simp)) ?_
  by_contra h
  push_neg at h
  exact mex_not_mem (Finset.range n) (Finset.mem_range.mpr h)

/-- Characterisation of the holding area once the arrivals in `S` have
been processed and the cursor is at `m`: it holds exactly the arrived
chunks at positions `≥ m`, keyed without duplicates. -/
def PendingInv (d : List Bytes) (S : Finset ℕ) (m : ℕ)
    (pending : List (ℕ × Bytes)) : Prop :=
  (pending.map Prod.fst).Nodup ∧
  ∀ q, lookupPos q pending = if q ∈ S ∧ m ≤ q then some (d.getD q []) else none

/-- Reassembler invariant: after the arrivals in `S` (out of the run
delivering chunk `q` of the list `d` at position `q`), the cursor is at
the first gap `mex S`, the output is the in-order concatenation of all
chunks below it, and the holding area holds exactly the rest. -/
def Inv (d : List Bytes) (S : Finset ℕ) (st : RState) : Prop :=
  st.nextPosition = mex S ∧
  st.out = ((List.range' 0 (mex S)).map (fun q => d.getD q [])).flatten ∧
  PendingInv d S (mex S) st.pending

theorem drain_inv (d : List Bytes) (S : Finset ℕ) :
    ∀ (k m : ℕ) (out : Bytes) (pending : List (ℕ × Bytes)),
      mex S - m = k → (∀ j, j < m → j ∈ S) →
      PendingInv d S m pending →
      ∃ pending',
        drain ⟨pending, m, out⟩ =
          ⟨pending', mex S,
            out ++ ((List.range' m (mex S - m)).map (fun q => d.getD q [])).flatten⟩ ∧
        PendingInv d S (mex S) pending'
  | 0, m, out, pending => by
    intro hk hall hpend
    have hm : m = mex S := by
      refine le_antisymm ?_ (by omega)
      by_contra h
      push_neg at h
      exact mex_not_mem S (hall (mex S) h)
    have hnone : lookupPos m pending = none := by
      rw [hpend.2 m, if_neg]
      intro hx
      exact mex_not_mem S (hm ▸ hx.1)
    refine ⟨pending, ?_, hm ▸ hpend⟩
    rw [drain_of_lookup_none ⟨pending, m, out⟩ hnone]
    rw [hk, List.range'_zero, List.map_nil, List.flatten_nil, List.append_nil, hm]
  | k + 1, m, out, pending => by
    intro hk hall hpend
    have hm : m < mex S := by omega
    have hmem : m ∈ S := mem_of_lt_mex S m hm
    have hsome : lookupPos m pending = some (d.getD m []) := by
      rw [hpend.2 m, if_pos ⟨hmem, le_refl m⟩]
    have hstep := drain_of_lookup_some ⟨pending, m, out⟩ (d.getD m []) hsome
    have hall' : ∀ j, j < m + 1 → j ∈ S := by
      intro j hj
      rcases Nat.lt_succ_iff_lt_or_eq.mp hj with h | rfl
      · exact hall j h
      · exact hmem
    have hpend' : PendingInv d S (m + 1) (erasePos m pending) := by
      refine ⟨nodup_erasePos m pending hpend.1, ?_⟩
      intro q
      rw [lookupPos_erasePos m pending hpend.1 q]
      by_cases hq : q = m
      · rw [if_pos hq, if_neg]
        intro hx
        omega
      · rw [if_neg hq, hpend.2 q]
        by_cases hqS : q ∈ S ∧ m ≤ q
        · rw [if_pos hqS, if_pos ⟨hqS.1, by omega⟩]
        · rw [if_neg hqS, if_neg]
          intro hx
          exact hqS ⟨hx.1, by omega⟩
    obtain ⟨pending', heq, hinv'⟩ :=
      drain_inv d S k (m + 1) (out ++ d.getD m []) (erasePos m pending)
        (by omega) hall' hpend'
    refine ⟨pending', ?_, hinv'⟩
    rw [hstep]
    rw [heq]
    have hrange : List.range' m (mex S - m) = m :: List.range' (m + 1) (mex S - (m + 1)) := by
      have h1 : mex S - m = (mex S - (m + 1)) + 1 := by omega
      rw [h1, List.range'_succ]
    rw [hrange, List.map_cons, List.flatten_cons, ← List.append_assoc]

theorem collectStep_inv (d : List Bytes) (S : Finset ℕ) (st : RState) (p : ℕ)
    (hInv : Inv d S st) (hp : p ∉ S) :
    Inv d (insert p S) (collectStep st (p, d.getD p [])) := by
  obtain ⟨hnext, hout, hnodup, hchar⟩ := hInv
  have hplook : lookupPos p st.pending = none := by
    rw [hchar p, if_neg]
    intro hx
    exact hp hx.1
  have hpkeys : p ∉ st.pending.map Prod.fst := (lookupPos_eq_none_iff p st.pending).mp hplook
  have hpend : PendingInv d (insert p S) (mex S) ((p, d.getD p []) :: st.pending) := by
    refine ⟨by rw [List.map_cons]; exact List.nodup_cons.mpr ⟨hpkeys, hnodup⟩, ?_⟩
    intro q
    rw [lookupPos_cons]
    by_cases hq : p = q
    · subst hq
      rw [if_pos rfl, if_pos ⟨Finset.mem_insert_self p S, mex_le_of_not_mem S p hp⟩]
    · rw [if_neg hq, hchar q]
      have hmem_iff : (q ∈ S ∧ mex S ≤ q) ↔ (q ∈ insert p S ∧ mex S ≤ q) := by
        constructor
        · rintro ⟨hin, hle⟩
          exact ⟨Finset.mem_insert_of_mem hin, hle⟩
        · rintro ⟨hin, hle⟩
          rcases Finset.mem_insert.mp hin with h | h
          · exact absurd h.symm hq
          · exact ⟨h, hle⟩
      exact if_congr hmem_iff rfl rfl
  have hall : ∀ j, j < mex S → j ∈ insert p S :=
    fun j hj => Finset.mem_insert_of_mem (mem_of_lt_mex S j hj)
  obtain ⟨pending', heq, hinv'⟩ :=
    drain_inv d (insert p S) (mex (insert p S) - mex S) (mex S) st.out
      ((p, d.getD p []) :: st.pending) rfl hall hpend
  have hle : mex S ≤ mex (insert p S) :=
    mex_le_of_not_mem S (mex (insert p S))
      (fun hx => mex_not_mem (insert p S) (Finset.mem_insert_of_mem hx))
  have hcs : collectStep st (p, d.getD p []) =
      drain ⟨(p, d.getD p []) :: st.pending, st.nextPosition, st.out⟩ := rfl
  rw [hcs, hnext, heq]
  refine ⟨rfl, ?_, hinv'⟩
  rw [hout, ← List.flatten_append, ← List.map_append]
  have hjoin : List.range' 0 (mex S) ++ List.range' (mex S) (mex (insert p S) - mex S) =
      List.range' 0 (mex (insert p S)) := by
    have := List.range'_append 0 (mex S) (mex (insert p S) - mex S) 1
    simp at this
    rw [this]
    congr 1
    omega
  rw [hjoin]

theorem foldl_collect_inv (d : List Bytes) :
    ∀ (l : List (ℕ × Bytes)) (S : Finset ℕ) (st : RState),
      (∀ pr ∈ l, pr.2 = d.getD pr.1 [] ∧ pr.1 ∉ S) →
      (l.map Prod.fst).Nodup →
      Inv d S st →
      Inv d (S ∪ (l.map Prod.fst).toFinset) (l.foldl collectStep st)
  | [], S, st => by
    intro _ _ hInv
    simpa using hInv
  | a :: t, S, st => by
    intro hmem hnodup hInv
    obtain ⟨p, dp⟩ := a
    obtain ⟨hdp, hnotin⟩ := hmem (p, dp) (List.mem_cons_self _ _)
    rw [List.map_cons, List.nodup_cons] at hnodup
    rw [List.foldl_cons]
    have hdp' : dp = d.getD p [] := hdp
    subst hdp'
    have hstep := collectStep_inv d S st p hInv hnotin
    have hrest := foldl_collect_inv d t (insert p S) (collectStep st (p, d.getD p []))
      (fun pr hpr => ⟨(hmem pr (List.mem_cons_of_mem _ hpr)).1,
        fun hx => by
          rcases Finset.mem_insert.mp hx with h | h
          · apply hnodup.1
            rw [← h]
            exact List.mem_map.mpr ⟨pr, hpr, rfl⟩
          · exact (hmem pr (List.mem_cons_of_mem _ hpr)).2 h⟩)
      hnodup.2 hstep
    have hset : insert p S ∪ (t.map Prod.fst).toFinset =
        S ∪ (((p, d.getD p []) :: t).map Prod.fst).toFinset := by
      rw [List.map_cons, List.toFinset_cons]
      ext x
      simp only [Finset.mem_union, Finset.mem_insert, List.mem_toFinset]
      tauto
    rw [← hset]
    exact hrest

theorem mem_enum_getD (d : List Bytes) (pr : ℕ × Bytes) (h : pr ∈ d.enum) :
    pr.1 < d.length ∧ pr.2 = d.getD pr.1 [] := by
  have h2 := List.mem_enum_iff_getElem?.mp h
  obtain ⟨hlt, hv⟩ := List.getElem?_eq_some.mp h2
  exact ⟨hlt, by rw [List.getD_eq_getElem d [] hlt, hv]⟩

theorem map_getD_range' :
    ∀ (d e : List Bytes),
      (List.range' e.length d.length).map (fun q => (e ++ d).getD q []) = d
  | [], e => by simp
  | a :: t, e => by
    rw [List.length_cons, List.range'_succ, List.map_cons]
    have hhead : (e ++ a :: t).getD e.length [] = a := by
      rw [List.getD_eq_getElem?_getD, List.getElem?_append_right (le_refl e.length)]
      simp
    rw [hhead]
    have htail := map_getD_range' t (e ++ [a])
    rw [List.length_append, List.length_cons, List.length_nil, List.append_assoc] at htail
    rw [List.singleton_append] at htail
    rw [htail]

theorem map_getD_range_self (d : List Bytes) :
    (List.range' 0 d.length).map (fun q => d.getD q []) = d := by
  have := map_getD_range' d []
  simpa using this

/-- C2: for every finite set of result chunks whose positions are exactly
`0 .. n-1` — the chunks of the list `d`, chunk `q` carrying position `q` —
and every arrival order (permutation) of those chunks, the reassembler
(`writeChunks` for files, the collector goroutine for buffers: both store
each arrival in the position-indexed holding area and then greedily drain
every chunk matching the next-expected-position cursor) emits exactly the
concatenation of the payloads in position order `0, 1, 2, ...`, regardless
of the arrival order. -/
theorem c2_reassembler_emits_in_position_order (d : List Bytes)
    (arrivals : List (ℕ × Bytes)) (hperm : arrivals.Perm d.enum) :
    writeChunksModel arrivals = d.flatten := by
  have hmem : ∀ pr ∈ arrivals, pr.2 = d.getD pr.1 [] ∧ pr.1 ∉ (∅ : Finset ℕ) := by
    intro pr hpr
    exact ⟨(mem_enum_getD d pr (hperm.mem_iff.mp hpr)).2, by simp⟩
  have hpos : (arrivals.map Prod.fst).Perm (List.range d.length) := by
    have := hperm.map Prod.fst
    rwa [List.enum_map_fst] at this
  have hnodup : (arrivals.map Prod.fst).Nodup := hpos.nodup_iff.mpr (List.nodup_range d.length)
  have h0 : Inv d ∅ ⟨[], 0, []⟩ := by
    refine ⟨by rw [mex_empty], by rw [mex_empty]; simp, by simp, ?_⟩
    intro q
    rw [lookupPos, if_neg]
    intro hx
    exact absurd hx.1 (Finset.not_mem_empty q)
  have hfold := foldl_collect_inv d arrivals ∅ ⟨[], 0, []⟩ hmem hnodup h0
  have hset : (∅ : Finset ℕ) ∪ (arrivals.map Prod.fst).toFinset =
      Finset.range d.length := by
    rw [Finset.empty_union, List.toFinset_eq_of_perm _ _ hpos]
    ext x
    simp
  rw [hset] at hfold
  obtain ⟨hnext, hout, hpend⟩ := hfold
  rw [writeChunksModel, hout, mex_range, map_getD_range_self]

/-! ### Tampering, and the ideal interface properties of the AEAD -/

/-- Flip bit `i` of a byte string: bit `i % 8` of byte `i / 8`. -/
def flipBit (i : ℕ) (bs : Bytes) : Bytes :=
  bs.set (i / 8) ((bs.getD (i / 8) 0) ^^^ (2 ^ (i % 8)))

/-- Soundness of the AEAD `Open`: it accepts exactly the sealed chunks
(ideal authenticity — the spec's glossary characterises AEAD as
"rejecting tampered input on decryption"). -/
def AEAD.Sound (A : AEAD) : Prop :=
  ∀ k n ct pt, A.Open k n ct = some pt → A.Seal k n pt = ct

/-- Ideal key separation: a chunk sealed under one full-length key is
never a valid sealing under a different full-length key. -/
def AEAD.KeySeparating (A : AEAD) : Prop :=
  ∀ k k' n n' pt pt', k.length = 32 → k'.length = 32 →
    A.Seal k n pt = A.Seal k' n' pt' → k = k'

/-- Ideal tamper evidence: flipping any single bit of a sealed chunk
makes `Open` under the sealing key and nonce reject it. -/
def AEAD.TamperEvident (A : AEAD) : Prop :=
  ∀ k n pt i, i < 8 * (A.Seal k n pt).length →
    A.Open k n (flipBit i (A.Seal k n pt)) = none

theorem getD_set_self (l : Bytes) (i v d : ℕ) (h : i < l.length) :
    (l.set i v).getD i d = v := by
  rw [List.getD_eq_getElem (l.set i v) d (by simpa using h)]
  exact List.getElem_set_self (by simpa using h)

theorem getD_append_left (l1 l2 : Bytes) (i d : ℕ) (h : i < l1.length) :
    (l1 ++ l2).getD i d = l1.getD i d := by
  rw [List.getD_eq_getElem _ d (by simp; omega), List.getD_eq_getElem _ d h]
  exact List.getElem_append_left h

theorem getD_append_right (l1 l2 : Bytes) (i d : ℕ) (h : l1.length ≤ i) :
    (l1 ++ l2).getD i d = l2.getD (i - l1.length) d := by
  rw [List.getD_eq_getElem?_getD, List.getElem?_append_right h, ← List.getD_eq_getElem?_getD]

theorem drop_set_of_ge :
    ∀ (l : Bytes) (j v L : ℕ), L ≤ j → (l.set j v).drop L = (l.drop L).set (j - L) v
  | l, j, v, 0 => by simp
  | [], j, v, L + 1 => by simp
  | a :: t, j, v, L + 1 => fun h => by
    obtain ⟨j', rfl⟩ : ∃ j', j = j' + 1 := ⟨j - 1, by omega⟩
    rw [List.set_cons_succ, List.drop_succ_cons, List.drop_succ_cons,
      drop_set_of_ge t j' v L (by omega)]
    congr 1
    omega

theorem sum_set_add :
    ∀ (l : Bytes) (j v : ℕ), j < l.length → (l.set j v).sum + l.getD j 0 = l.sum + v
  | [], j, v => by simp
  | a :: t, 0, v => by
    intro _
    rw [List.set_cons_zero, List.sum_cons, List.sum_cons, List.getD_cons_zero]
    omega
  | a :: t, j + 1, v => by
    intro h
    rw [List.set_cons_succ, List.sum_cons, List.sum_cons, List.getD_cons_succ]
    have := sum_set_add t j v (by simp [List.length_cons] at h; omega)
    omega

theorem testBit_eq_of_mod256 (a b : ℕ) (h : a % 256 = b % 256) (e : ℕ) (he : e < 8) :
    a.testBit e = b.testBit e := by
  have h2 : ∀ x : ℕ, (x % 2 ^ 8).testBit e = x.testBit e := by
    intro x
    rw [Nat.testBit_mod_two_pow]
    simp [he]
  have h256 : (2 : ℕ) ^ 8 = 256 := by norm_num
  have ha := h2 a
  have hb := h2 b
  rw [h256] at ha hb
  rw [← ha, ← hb, h]

theorem xor_two_pow_mod256_ne (b e : ℕ) (he : e < 8) :
    ¬ (b ^^^ 2 ^ e) % 256 = b % 256 := by
  intro h
  have := testBit_eq_of_mod256 _ _ h e he
  rw [Nat.testBit_xor, Nat.testBit_two_pow_self] at this
  cases hb : b.testBit e <;> rw [hb] at this <;> simp at this

/-! ### A concrete AEAD satisfying the interface and its ideal properties

This instance witnesses that the AEAD interface assumed by the theorems
is satisfiable: the "tag" is the 32-byte (padded) key followed by a
one-byte checksum binding key, nonce and plaintext. -/

/-- The key padded/truncated to exactly 32 bytes. -/
def pad32 (k : Bytes) : Bytes := (k ++ List.replicate 32 0).take 32

/-- Witness seal: plaintext, then the padded key, then a checksum byte. -/
def idealSealImpl (k n pt : Bytes) : Bytes :=
  pt ++ (pad32 k ++ [(pt.sum + k.sum + n.sum) % 256])

/-- Witness open: checks length, embedded key and checksum. -/
def idealOpenImpl (k n ct : Bytes) : Option Bytes :=
  if 33 ≤ ct.length then
    if ct.drop (ct.length - 33) =
        pad32 k ++ [((ct.take (ct.length - 33)).sum + k.sum + n.sum) % 256] then
      some (ct.take (ct.length - 33))
    else none
  else none

theorem length_pad32 (k : Bytes) : (pad32 k).length = 32 := by
  rw [pad32, List.length_take, List.length_append, List.length_replicate]
  omega

theorem length_idealSeal (k n pt : Bytes) : (idealSealImpl k n pt).length = pt.length + 33 := by
  rw [idealSealImpl, List.length_append, List.length_append, length_pad32,
    List.length_cons, List.length_nil]

theorem pad32_eq_self (k : Bytes) (hk : k.length = 32) : pad32 k = k := by
  rw [pad32, ← hk, List.take_left]

theorem idealOpen_idealSeal (k n pt : Bytes) :
    idealOpenImpl k n (idealSealImpl k n pt) = some pt := by
  have hlen := length_idealSeal k n pt
  rw [idealOpenImpl, if_pos (by omega)]
  have hL : (idealSealImpl k n pt).length - 33 = pt.length := by omega
  rw [hL]
  have htake : (idealSealImpl k n pt).take pt.length = pt := by
    rw [idealSealImpl, List.take_left]
  have hdrop : (idealSealImpl k n pt).drop pt.length =
      pad32 k ++ [(pt.sum + k.sum + n.sum) % 256] := by
    rw [idealSealImpl, List.drop_left]
  rw [htake, hdrop, if_pos rfl]

/-- The concrete AEAD instance. -/
def idealAEAD : AEAD where
  nonceSize := 12
  overhead := 33
  Seal := idealSealImpl
  Open := idealOpenImpl
  seal_length := length_idealSeal
  open_seal := idealOpen_idealSeal

theorem idealAEAD_sound : idealAEAD.Sound := by
  intro k n ct pt hopen
  have hS : idealAEAD.Seal = idealSealImpl := rfl
  have hO : idealAEAD.Open = idealOpenImpl := rfl
  rw [hO, idealOpenImpl] at hopen
  rw [hS]
  by_cases h33 : 33 ≤ ct.length
  · rw [if_pos h33] at hopen
    by_cases hcond : ct.drop (ct.length - 33) =
        pad32 k ++ [((ct.take (ct.length - 33)).sum + k.sum + n.sum) % 256]
    · rw [if_pos hcond] at hopen
      have hpt : pt = ct.take (ct.length - 33) := by
        rw [Option.some.injEq] at hopen
        exact hopen.symm
      rw [idealSealImpl, hpt, ← hcond, List.take_append_drop]
    · rw [if_neg hcond] at hopen
      exact absurd hopen (by simp)
  · rw [if_neg h33] at hopen
    exact absurd hopen (by simp)

theorem idealAEAD_keySeparating : idealAEAD.KeySeparating := by
  intro k k' n n' pt pt' hk hk' heq
  have hS : idealAEAD.Seal = idealSealImpl := rfl
  rw [hS, idealSealImpl, idealSealImpl] at heq
  have hlen : pt.length = pt'.length := by
    have h1 := congrArg List.length heq
    rw [List.length_append, List.length_append, List.length_append, List.length_append,
      length_pad32, length_pad32] at h1
    simp at h1
    omega
  have hpt : pt = pt' := by
    have h1 := congrArg (List.take pt.length) heq
    rw [List.take_left, hlen, List.take_left] at h1
    exact h1
  rw [hpt] at heq
  have htail := List.append_cancel_left heq
  have hpad : pad32 k = pad32 k' := by
    have h1 := congrArg (List.take 32) htail
    rw [List.take_left' (length_pad32 k), List.take_left' (length_pad32 k')] at h1
    exact h1
  rw [← pad32_eq_self k hk, ← pad32_eq_self k' hk', hpad]

theorem idealAEAD_tamperEvident : idealAEAD.TamperEvident := by
  intro k n pt i hi
  have hS : idealAEAD.Seal = idealSealImpl := rfl
  have hO : idealAEAD.Open = idealOpenImpl := rfl
  rw [hS] at hi
  rw [hS, hO]
  simp only [flipBit]
  rw [length_idealSeal] at hi
  have he : i % 8 < 8 := Nat.mod_lt i (by norm_num)
  have hj : i / 8 < pt.length + 33 := by omega
  have hlen' :
      ((idealSealImpl k n pt).set (i / 8)
        ((idealSealImpl k n pt).getD (i / 8) 0 ^^^ 2 ^ (i % 8))).length =
      pt.length + 33 := by
    rw [List.length_set, length_idealSeal]
  rw [idealOpenImpl, if_pos (by omega)]
  have hL : ((idealSealImpl k n pt).set (i / 8)
      ((idealSealImpl k n pt).getD (i / 8) 0 ^^^ 2 ^ (i % 8))).length - 33 = pt.length := by
    omega
  rw [hL]
  by_cases hjL : i / 8 < pt.length
  · -- the flipped bit lies in the plaintext part of the record
    have hb : (idealSealImpl k n pt).getD (i / 8) 0 = pt.getD (i / 8) 0 := by
      rw [idealSealImpl, getD_append_left _ _ _ _ hjL]
    have htake : ((idealSealImpl k n pt).set (i / 8)
        (pt.getD (i / 8) 0 ^^^ 2 ^ (i % 8))).take pt.length =
        pt.set (i / 8) (pt.getD (i / 8) 0 ^^^ 2 ^ (i % 8)) := by
      rw [List.set_take, idealSealImpl, List.take_left]
    have hdrop : ((idealSealImpl k n pt).set (i / 8)
        (pt.getD (i / 8) 0 ^^^ 2 ^ (i % 8))).drop pt.length =
        pad32 k ++ [(pt.sum + k.sum + n.sum) % 256] := by
      rw [List.drop_set_of_lt _ _ hjL, idealSealImpl, List.drop_left]
    rw [hb, htake, hdrop]
    rw [if_neg]
    intro hcond
    have hc := List.append_cancel_left hcond
    simp only [List.cons.injEq, and_true] at hc
    have hsum := sum_set_add pt (i / 8) (pt.getD (i / 8) 0 ^^^ 2 ^ (i % 8)) hjL
    have hmod : (pt.getD (i / 8) 0 ^^^ 2 ^ (i % 8)) % 256 = pt.getD (i / 8) 0 % 256 := by
      omega
    exact xor_two_pow_mod256_ne (pt.getD (i / 8) 0) (i % 8) he hmod
  · -- the flipped bit lies in the tag part of the record
    have hLj : pt.length ≤ i / 8 := by omega
    have hb : (idealSealImpl k n pt).getD (i / 8) 0 =
        (pad32 k ++ [(pt.sum + k.sum + n.sum) % 256]).getD (i / 8 - pt.length) 0 := by
      rw [idealSealImpl, getD_append_right _ _ _ _ hLj]
    have htake : ((idealSealImpl k n pt).set (i / 8)
        ((idealSealImpl k n pt).getD (i / 8) 0 ^^^ 2 ^ (i % 8))).take pt.length = pt := by
      rw [List.set_take, idealSealImpl, List.take_left, List.set_eq_of_length_le hLj]
    have hdrop : ((idealSealImpl k n pt).set (i / 8)
        ((idealSealImpl k n pt).getD (i / 8) 0 ^^^ 2 ^ (i % 8))).drop pt.length =
        (pad32 k ++ [(pt.sum + k.sum + n.sum) % 256]).set (i / 8 - pt.length)
          ((idealSealImpl k n pt).getD (i / 8) 0 ^^^ 2 ^ (i % 8)) := by
      rw [drop_set_of_ge _ _ _ _ hLj, idealSealImpl, List.drop_left]
    rw [htake, hdrop]
    rw [if_neg]
    intro hcond
    have hrestlen : (pad32 k ++ [(pt.sum + k.sum + n.sum) % 256]).length = 33 := by
      rw [List.length_append, length_pad32, List.length_cons, List.length_nil]
    have hjr : i / 8 - pt.length < 33 := by omega
    have hval := congrArg (fun l : Bytes => l.getD (i / 8 - pt.length) 0) hcond
    simp only at hval
    rw [getD_set_self _ _ _ _ (by omega), ← hb] at hval
    have : ((idealSealImpl k n pt).getD (i / 8) 0 ^^^ 2 ^ (i % 8)) % 256 =
        (idealSealImpl k n pt).getD (i / 8) 0 % 256 := by
      rw [hval]
    exact xor_two_pow_mod256_ne _ _ he this

theorem flipBit_append_right (i : ℕ) (a b : Bytes) (h : 8 * a.length ≤ i) :
    flipBit i (a ++ b) = a ++ flipBit (i - 8 * a.length) b := by
  simp only [flipBit]
  have hj : a.length ≤ i / 8 := by omega
  rw [List.set_append_right _ _ hj, getD_append_right _ _ _ _ hj]
  have h1 : (i - 8 * a.length) / 8 = i / 8 - a.length := by omega
  have h2 : (i - 8 * a.length) % 8 = i % 8 := by omega
  rw [h1, h2]

theorem length_flipBit (i : ℕ) (bs : Bytes) : (flipBit i bs).length = bs.length := by
  simp only [flipBit]
  rw [List.length_set]

theorem sizedRecords_set (E : ℕ) :
    ∀ (l : List Bytes) (m : ℕ) (bad : Bytes), bad.length = (l.getD m []).length →
      SizedRecords E l → SizedRecords E (l.set m bad)
  | [], m, bad => by
    intro _ _
    rw [List.set_nil]
    trivial
  | [r], 0, bad => by
    intro hlen h
    rw [List.getD_cons_zero] at hlen
    rw [List.set_cons_zero]
    exact ⟨by rw [hlen]; exact h.1, by rw [hlen]; exact h.2⟩
  | [r], m + 1, bad => by
    intro _ h
    rw [List.set_cons_succ, List.set_nil]
    exact h
  | r :: b :: t, 0, bad => by
    intro hlen h
    rw [List.getD_cons_zero] at hlen
    rw [List.set_cons_zero]
    exact ⟨by rw [hlen]; exact h.1, h.2⟩
  | r :: b :: t, m + 1, bad => by
    intro hlen h
    rw [List.getD_cons_succ] at hlen
    rw [List.set_cons_succ]
    have hrest := sizedRecords_set E (b :: t) m bad hlen h.2
    cases m with
    | zero =>
      rw [List.set_cons_zero] at hrest ⊢
      exact ⟨h.1, hrest⟩
    | succ m' =>
      rw [List.set_cons_succ] at hrest ⊢
      exact ⟨h.1, hrest⟩

theorem sealChunks_length (A : AEAD) (k : Bytes) (nonces : ℕ → Bytes) :
    ∀ (i : ℕ) (cs : List Bytes), (sealChunks A k nonces i cs).length = cs.length
  | _, [] => by rw [sealChunks]
  | i, pt :: rest => by
    rw [sealChunks, List.length_cons, List.length_cons, sealChunks_length A k nonces (i + 1) rest]

theorem decryptChunk_flip_fail (A : AEAD) (hTE : A.TamperEvident) (k nonce pt : Bytes)
    (hn : nonce.length = A.nonceSize) (lbit : ℕ) (hlo : 8 * A.nonceSize ≤ lbit)
    (hhi : lbit < 8 * (nonce ++ A.Seal k nonce pt).length) :
    decryptChunk A k (flipBit lbit (nonce ++ A.Seal k nonce pt)) =
      .error .authenticationFailure := by
  rw [flipBit_append_right lbit nonce _ (by rw [hn]; exact hlo), hn]
  rw [decryptChunk]
  have hlen : (nonce ++ flipBit (lbit - 8 * A.nonceSize) (A.Seal k nonce pt)).length =
      A.nonceSize + (A.Seal k nonce pt).length := by
    rw [List.length_append, length_flipBit, hn]
  rw [if_neg (by omega)]
  rw [List.take_left' hn, List.drop_left' hn]
  have hidx : lbit - 8 * A.nonceSize < 8 * (A.Seal k nonce pt).length := by
    rw [List.length_append, hn] at hhi
    omega
  rw [hTE k nonce pt (lbit - 8 * A.nonceSize) hidx]

theorem decryptChunk_wrong_key (A : AEAD) (hSound : A.Sound) (hKS : A.KeySeparating)
    (k k' nonce pt : Bytes) (hk : k.length = 32) (hk' : k'.length = 32) (hne : k' ≠ k)
    (hn : nonce.length = A.nonceSize) :
    decryptChunk A k' (nonce ++ A.Seal k nonce pt) = .error .authenticationFailure := by
  rw [decryptChunk]
  have hlen : (nonce ++ A.Seal k nonce pt).length =
      A.nonceSize + (A.Seal k nonce pt).length := by
    rw [List.length_append, hn]
  rw [if_neg (by omega)]
  rw [List.take_left' hn, List.drop_left' hn]
  match hopen : A.Open k' nonce (A.Seal k nonce pt) with
  | some pt' =>
    have hseal := hSound k' nonce (A.Seal k nonce pt) pt' hopen
    exact absurd (hKS k' k nonce nonce pt' pt hk' hk hseal) hne
  | none => rfl

/-! ### The claims -/

/-- C1: for every byte sequence `data` (including the empty sequence) and
every passphrase-derived key (32 bytes, the length `NewCypher` always
derives), decrypting the result of encrypting `data` with that key
returns exactly `data`, when both use the same `Cypher` configuration
(same key and `ChunkSize`). -/
theorem c1_decrypt_encrypt_roundtrip (A : AEAD) (c : Cypher) (nonces : ℕ → Bytes)
    (data enc : Bytes) (hk : c.key.length = 32) (hcs : 0 < c.ChunkSize)
    (hn : ∀ i, (nonces i).length = A.nonceSize)
    (henc : (c.Encrypt A nonces data).1 = some enc) :
    c.Decrypt A enc = (some data, none) := by
  have hkv : aesNewCipher c.key = .ok () := by
    rw [aesNewCipher, if_pos (Or.inr (Or.inr hk))]
  simp only [Cypher.Encrypt, hkv] at henc
  have henc' : (sealChunks A c.key nonces 0 (chunkSplit data c.ChunkSize)).flatten = enc := by
    simpa using henc
  have hsz := sealChunks_sized A c.key nonces hn c.ChunkSize 0 _
    (sizedRecords_chunkSplit c.ChunkSize hcs data)
  simp only [Cypher.Decrypt, hkv, encryptedChunkSize]
  rw [← henc']
  rw [chunkSplit_flatten_eq (c.ChunkSize + A.nonceSize + A.overhead) (by omega) _ hsz]
  rw [mapME_sealChunks A c.key nonces hn 0]
  show (some (chunkSplit data c.ChunkSize).flatten, none) = (some data, none)
  rw [flatten_chunkSplit c.ChunkSize hcs data]

/-- C1 witness: a concrete round trip through the pipeline with the
checksum AEAD, a 32-byte key and chunk size 2 on a 3-byte input. -/
theorem c1_decrypt_encrypt_roundtrip_witness :
    Cypher.Decrypt ⟨List.replicate 32 0, 2, 10, 4⟩ idealAEAD
      ((Cypher.Encrypt ⟨List.replicate 32 0, 2, 10, 4⟩ idealAEAD
        (fun _ => List.replicate 12 0) [1, 2, 3]).1.getD []) =
      (some [1, 2, 3], none) :=
  c1_decrypt_encrypt_roundtrip idealAEAD ⟨List.replicate 32 0, 2, 10, 4⟩
    (fun _ => List.replicate 12 0) [1, 2, 3] _ (by decide) (by decide)
    (by intro i; rfl) (by rfl)

/-- C3: the encrypted output is the flat concatenation, in position
order, of the per-chunk records `nonce || ciphertext+tag` — the record of
chunk `j` is `nonces j ++ Seal key (nonces j) (chunk j)` and has length
`nonceSize + |chunk j| + overhead` — with no header, no length field and
chunk-count metadata; and the chunk boundaries are re-derived on
decryption purely by splitting at the fixed size
`chunkSize + nonceSize + tagOverhead` (every record except the last has
exactly that length, the last may be shorter), which recovers exactly the
record list. -/
theorem c3_flat_record_format (A : AEAD) (c : Cypher) (nonces : ℕ → Bytes) (data : Bytes)
    (hk : c.key.length = 32) (hcs : 0 < c.ChunkSize)
    (hn : ∀ i, (nonces i).length = A.nonceSize) :
    (c.Encrypt A nonces data).1 =
      some (sealChunks A c.key nonces 0 (chunkSplit data c.ChunkSize)).flatten ∧
    (∀ j, j < (chunkSplit data c.ChunkSize).length →
      (sealChunks A c.key nonces 0 (chunkSplit data c.ChunkSize)).getD j [] =
        nonces j ++ A.Seal c.key (nonces j) ((chunkSplit data c.ChunkSize).getD j []) ∧
      ((sealChunks A c.key nonces 0 (chunkSplit data c.ChunkSize)).getD j []).length =
        A.nonceSize + ((chunkSplit data c.ChunkSize).getD j []).length + A.overhead) ∧
    SizedRecords (encryptedChunkSize A c)
      (sealChunks A c.key nonces 0 (chunkSplit data c.ChunkSize)) ∧
    chunkSplit (sealChunks A c.key nonces 0 (chunkSplit data c.ChunkSize)).flatten
      (encryptedChunkSize A c) =
      sealChunks A c.key nonces 0 (chunkSplit data c.ChunkSize) := by
  have hkv : aesNewCipher c.key = .ok () := by
    rw [aesNewCipher, if_pos (Or.inr (Or.inr hk))]
  have hsz := sealChunks_sized A c.key nonces hn c.ChunkSize 0 _
    (sizedRecords_chunkSplit c.ChunkSize hcs data)
  refine ⟨by simp [Cypher.Encrypt, hkv], ?_, hsz, ?_⟩
  · intro j hj
    have hrec := sealChunks_getD A c.key nonces 0 j (chunkSplit data c.ChunkSize) hj
    rw [Nat.zero_add] at hrec
    refine ⟨hrec, ?_⟩
    rw [hrec, List.length_append, hn j, A.seal_length]
    omega
  · rw [encryptedChunkSize]
    exact chunkSplit_flatten_eq (c.ChunkSize + A.nonceSize + A.overhead) (by omega) _ hsz

/-- C3 witness: re-splitting the concrete encrypted output at the fixed
encrypted-chunk size recovers exactly the per-chunk records. -/
theorem c3_flat_record_format_witness :
    chunkSplit (sealChunks idealAEAD (List.replicate 32 0) (fun _ => List.replicate 12 0) 0
        (chunkSplit [1, 2, 3] 2)).flatten
      (encryptedChunkSize idealAEAD ⟨List.replicate 32 0, 2, 10, 4⟩) =
      sealChunks idealAEAD (List.replicate 32 0) (fun _ => List.replicate 12 0) 0
        (chunkSplit [1, 2, 3] 2) :=
  (c3_flat_record_format idealAEAD ⟨List.replicate 32 0, 2, 10, 4⟩
    (fun _ => List.replicate 12 0) [1, 2, 3] (by decide) (by decide)
    (by intro i; rfl)).2.2.2

/-- C5: during decryption, a chunk whose payload is strictly shorter than
`nonceSize` makes the worker fail with the `MalformedChunk` error
("encrypted chunk too small"), emitting no result for the chunk — in
particular a run whose single chunk is short fails with exactly that
error and a nil output buffer; a chunk whose payload is at least
`nonceSize` long is split into the first `nonceSize` bytes (nonce) and
the remainder (ciphertext), which are passed to `Open`, whose answer
decides the chunk's fate. -/
theorem c5_malformed_short_chunk (A : AEAD) (k payloadShort payloadOK : Bytes)
    (c : Cypher) (data : Bytes)
    (h1 : payloadShort.length < A.nonceSize)
    (h2 : A.nonceSize ≤ payloadOK.length)
    (hk : c.key.length = 32) (hd : data ≠ []) (hdlen : data.length < A.nonceSize) :
    decryptChunk A k payloadShort = .error .malformedChunk ∧
    (∀ pt, decryptChunk A k payloadOK = .ok pt ↔
      A.Open k (payloadOK.take A.nonceSize) (payloadOK.drop A.nonceSize) = some pt) ∧
    c.Decrypt A data = (none, some .malformedChunk) := by
  have hkv : aesNewCipher c.key = .ok () := by
    rw [aesNewCipher, if_pos (Or.inr (Or.inr hk))]
  refine ⟨by rw [decryptChunk, if_pos h1], ?_, ?_⟩
  · intro pt
    rw [decryptChunk, if_neg (by omega)]
    match hopen : A.Open k (payloadOK.take A.nonceSize) (payloadOK.drop A.nonceSize) with
    | some pt' => simp
    | none => simp
  · have hsplit : chunkSplit data (encryptedChunkSize A c) = [data] := by
      apply chunkSplit_single data _ hd
      rw [encryptedChunkSize]
      omega
    have hfail : decryptChunk A c.key data = .error .malformedChunk := by
      rw [decryptChunk, if_pos hdlen]
    simp only [Cypher.Decrypt, hkv, hsplit, mapME, hfail]

/-- C5 witness: a 2-byte chunk against the 12-byte nonce size, a 13-byte
well-formed chunk, and a whole run on a single short chunk. -/
theorem c5_malformed_short_chunk_witness :
    Cypher.Decrypt ⟨List.replicate 32 0, 2, 10, 4⟩ idealAEAD [5] =
      (none, some CypherError.malformedChunk) :=
  (c5_malformed_short_chunk idealAEAD [] [1, 2] (List.replicate 13 0)
    ⟨List.replicate 32 0, 2, 10, 4⟩ [5] (by decide) (by decide) (by decide)
    (by decide) (by decide)).2.2

/-- C7: chunk-splitting boundaries — an empty input encrypts and then
decrypts to an empty output with no error (zero chunks); an input of
exactly `chunkSize` bytes produces exactly one chunk; an input of
`chunkSize + 1` bytes produces exactly two chunks, the second of which
holds 1 byte on the plaintext side and `1 + nonceSize + tagOverhead`
bytes on the ciphertext side. -/
theorem c7_chunk_boundaries (A : AEAD) (c : Cypher) (nonces : ℕ → Bytes)
    (dataOne dataTwo : Bytes)
    (hk : c.key.length = 32) (hcs : 0 < c.ChunkSize)
    (hn : ∀ i, (nonces i).length = A.nonceSize)
    (h1 : dataOne.length = c.ChunkSize) (h2 : dataTwo.length = c.ChunkSize + 1) :
    (c.Encrypt A nonces [] = (some [], none) ∧ c.Decrypt A [] = (some [], none)) ∧
    (chunkSplit dataOne c.ChunkSize).length = 1 ∧
    ((chunkSplit dataTwo c.ChunkSize).length = 2 ∧
      ((chunkSplit dataTwo c.ChunkSize).getD 1 []).length = 1 ∧
      ((sealChunks A c.key nonces 0 (chunkSplit dataTwo c.ChunkSize)).getD 1 []).length =
        1 + A.nonceSize + A.overhead) := by
  have hkv : aesNewCipher c.key = .ok () := by
    rw [aesNewCipher, if_pos (Or.inr (Or.inr hk))]
  have hone : chunkSplit dataOne c.ChunkSize = [dataOne] :=
    chunkSplit_single dataOne c.ChunkSize
      (by intro hx; rw [hx] at h1; simp at h1; omega) (by omega)
  have hdrop : (dataTwo.drop c.ChunkSize).length = 1 := by
    rw [List.length_drop]
    omega
  have htwo : chunkSplit dataTwo c.ChunkSize =
      [dataTwo.take c.ChunkSize, dataTwo.drop c.ChunkSize] := by
    rw [chunkSplit_eq_cons dataTwo c.ChunkSize
      (by intro hx; rw [hx] at h2; simp at h2) hcs]
    rw [chunkSplit_single (dataTwo.drop c.ChunkSize) c.ChunkSize
      (by intro hx; rw [hx] at hdrop; simp at hdrop) (by omega)]
  refine ⟨⟨?_, ?_⟩, by rw [hone]; rfl, ?_, ?_, ?_⟩
  · simp [Cypher.Encrypt, hkv, chunkSplit, sealChunks]
  · simp [Cypher.Decrypt, hkv, chunkSplit, mapME]
  · rw [htwo]; rfl
  · rw [htwo, List.getD_cons_succ, List.getD_cons_zero]
    exact hdrop
  · have hj : 1 < (chunkSplit dataTwo c.ChunkSize).length := by rw [htwo]; simp
    rw [sealChunks_getD A c.key nonces 0 1 _ hj, Nat.zero_add, List.length_append,
      hn 1, A.seal_length]
    rw [htwo, List.getD_cons_succ, List.getD_cons_zero, hdrop]
    omega

/-- C7 witness: chunk size 2 on inputs of 0, 2 and 3 bytes with the
checksum AEAD. -/
theorem c7_chunk_boundaries_witness :
    (chunkSplit [7, 8, 9] 2).length = 2 ∧
    ((chunkSplit [7, 8, 9] 2).getD 1 []).length = 1 ∧
    ((sealChunks idealAEAD (List.replicate 32 0) (fun _ => List.replicate 12 0) 0
      (chunkSplit [7, 8, 9] 2)).getD 1 []).length = 1 + idealAEAD.nonceSize + idealAEAD.overhead :=
  (c7_chunk_boundaries idealAEAD ⟨List.replicate 32 0, 2, 10, 4⟩
    (fun _ => List.replicate 12 0) [7, 8] [7, 8, 9] (by decide) (by decide)
    (by intro i; rfl) (by decide) (by decide)).2.2

/-- C2 witness: three chunks arriving in the order 2, 0, 1 are emitted in
position order. -/
theorem c2_reassembler_emits_in_position_order_witness :
    writeChunksModel [(2, [30]), (0, [10]), (1, [20])] = [[10], [20], [30]].flatten :=
  c2_reassembler_emits_in_position_order [[10], [20], [30]]
    [(2, [30]), (0, [10]), (1, [20])] (by decide)

/-- C6: under the ideal authenticity properties the spec attributes to
the AEAD (open accepts only exact sealings, sealings under distinct
full-length keys never coincide, and any one-bit flip of a sealed chunk
is rejected), decrypting data that was encrypted under a different key
fails the run with `AuthenticationFailure`, and so does decrypting data
in which any single bit within some chunk's ciphertext-or-tag region
(past the nonce) has been flipped; in both cases the returned byte slice
is nil — wrong plaintext is never returned silently. -/
theorem c6_wrong_key_and_tamper_fail (A : AEAD) (c cOther : Cypher) (nonces : ℕ → Bytes)
    (data : Bytes) (m lbit : ℕ)
    (hSound : A.Sound) (hKS : A.KeySeparating) (hTE : A.TamperEvident)
    (hk : c.key.length = 32) (hkO : cOther.key.length = 32) (hkk : cOther.key ≠ c.key)
    (hcs : 0 < c.ChunkSize) (hcsO : cOther.ChunkSize = c.ChunkSize)
    (hn : ∀ i, (nonces i).length = A.nonceSize)
    (hd : data ≠ [])
    (hm : m < (chunkSplit data c.ChunkSize).length)
    (hlo : 8 * A.nonceSize ≤ lbit)
    (hhi : lbit <
      8 * ((sealChunks A c.key nonces 0 (chunkSplit data c.ChunkSize)).getD m []).length) :
    cOther.Decrypt A (sealChunks A c.key nonces 0 (chunkSplit data c.ChunkSize)).flatten =
      (none, some .authenticationFailure) ∧
    c.Decrypt A ((sealChunks A c.key nonces 0 (chunkSplit data c.ChunkSize)).set m
        (flipBit lbit
          ((sealChunks A c.key nonces 0 (chunkSplit data c.ChunkSize)).getD m []))).flatten =
      (none, some .authenticationFailure) := by
  have hkv : aesNewCipher c.key = .ok () := by
    rw [aesNewCipher, if_pos (Or.inr (Or.inr hk))]
  have hkvO : aesNewCipher cOther.key = .ok () := by
    rw [aesNewCipher, if_pos (Or.inr (Or.inr hkO))]
  have hsz := sealChunks_sized A c.key nonces hn c.ChunkSize 0 _
    (sizedRecords_chunkSplit c.ChunkSize hcs data)
  have hrec := sealChunks_getD A c.key nonces 0 m (chunkSplit data c.ChunkSize) hm
  rw [Nat.zero_add] at hrec
  constructor
  · -- wrong key: already the first chunk is rejected
    obtain ⟨c0, cs, hchunks⟩ :=
      List.exists_cons_of_ne_nil (chunkSplit_ne_nil data c.ChunkSize hd)
    simp only [Cypher.Decrypt, hkvO, encryptedChunkSize, hcsO]
    rw [chunkSplit_flatten_eq (c.ChunkSize + A.nonceSize + A.overhead) (by omega) _ hsz]
    rw [hchunks, sealChunks, mapME,
      decryptChunk_wrong_key A hSound hKS c.key cOther.key (nonces 0) c0 hk hkO hkk (hn 0)]
  · -- a flipped bit inside chunk m's ciphertext-or-tag region
    have hmr : m < (sealChunks A c.key nonces 0 (chunkSplit data c.ChunkSize)).length := by
      rw [sealChunks_length]
      exact hm
    have hbadlen :
        (flipBit lbit
          ((sealChunks A c.key nonces 0 (chunkSplit data c.ChunkSize)).getD m [])).length =
        ((sealChunks A c.key nonces 0 (chunkSplit data c.ChunkSize)).getD m []).length :=
      length_flipBit _ _
    have hszSet := sizedRecords_set (c.ChunkSize + A.nonceSize + A.overhead) _ m _ hbadlen hsz
    have hbad : decryptChunk A c.key
        (flipBit lbit ((sealChunks A c.key nonces 0 (chunkSplit data c.ChunkSize)).getD m [])) =
        .error .authenticationFailure := by
      rw [hrec] at hhi ⊢
      exact decryptChunk_flip_fail A hTE c.key (nonces m)
        ((chunkSplit data c.ChunkSize).getD m []) (hn m) lbit hlo hhi
    have hok := mapME_ok_of_mem (decryptChunk A c.key)
      (sealChunks A c.key nonces 0 (chunkSplit data c.ChunkSize)) (chunkSplit data c.ChunkSize)
      (mapME_sealChunks A c.key nonces hn 0 (chunkSplit data c.ChunkSize))
    simp only [Cypher.Decrypt, hkv, encryptedChunkSize]
    rw [chunkSplit_flatten_eq (c.ChunkSize + A.nonceSize + A.overhead) (by omega) _ hszSet]
    rw [mapME_set_error (decryptChunk A c.key) _ m _ _ hmr hok hbad]

/-- C6 witness: a one-chunk run under key `1…1` decrypted with key `2…2`,
and the same run with bit 96 (the first bit after the 12-byte nonce) of
the single record flipped, both fail with `AuthenticationFailure`. -/
theorem c6_wrong_key_and_tamper_fail_witness :
    Cypher.Decrypt ⟨List.replicate 32 2, 2, 10, 4⟩ idealAEAD
      (sealChunks idealAEAD (List.replicate 32 1) (fun _ => List.replicate 12 0) 0
        (chunkSplit [7] 2)).flatten =
      (none, some CypherError.authenticationFailure) :=
  (c6_wrong_key_and_tamper_fail idealAEAD ⟨List.replicate 32 1, 2, 10, 4⟩
    ⟨List.replicate 32 2, 2, 10, 4⟩ (fun _ => List.replicate 12 0) [7] 0 96
    idealAEAD_sound idealAEAD_keySeparating idealAEAD_tamperEvident
    (by decide) (by decide) (by decide) (by decide) (by decide) (by intro i; rfl)
    (by decide)
    (by
      show 0 < (chunkSplit [7] 2).length
      rw [chunkSplit_single [7] 2 (by decide) (by decide)]
      simp)
    (by decide)
    (by
      show 96 < 8 * ((sealChunks idealAEAD (List.replicate 32 1)
        (fun _ => List.replicate 12 0) 0 (chunkSplit [7] 2)).getD 0 []).length
      rw [chunkSplit_single [7] 2 (by decide) (by decide)]
      decide)).1

/-- C9: for every passphrase, `NewCypher` derives the key as the
lowercase hexadecimal encoding of the MD5 digest of the passphrase —
always exactly 32 bytes, each the ASCII code of a digit or of `a`-`f` —
independent of core count and options; derivation is deterministic (the
key is a function of the passphrase alone, and its 32-byte length selects
AES-256), so the cipher-construction error branches of `Encrypt`,
`Decrypt`, `EncryptFile` and `DecryptFile` are unreachable for any
`Cypher` built via `NewCypher`. -/
theorem c9_newCypher_key_derivation (numCPU : ℕ) (pass : String) (opts : List COption) :
    (NewCypher numCPU pass opts).key = MD5HashFromString pass ∧
    (NewCypher numCPU pass opts).key.length = 32 ∧
    (∀ b ∈ (NewCypher numCPU pass opts).key,
      (48 ≤ b ∧ b ≤ 57) ∨ (97 ≤ b ∧ b ≤ 102)) ∧
    aesNewCipher (NewCypher numCPU pass opts).key = .ok () ∧
    (∀ (A : AEAD) (nonces : ℕ → Bytes) (data : Bytes),
      ((NewCypher numCPU pass opts).Encrypt A nonces data).2 ≠
        some CypherError.configError) ∧
    (∀ (A : AEAD) (data : Bytes),
      ((NewCypher numCPU pass opts).Decrypt A data).2 ≠ some CypherError.configError) ∧
    (∀ (A : AEAD) (nonces : ℕ → Bytes) (input : Option Bytes),
      ((NewCypher numCPU pass opts).EncryptFile A nonces input).2 ≠
        .error CypherError.configError) ∧
    (∀ (A : AEAD) (input : Option Bytes),
      ((NewCypher numCPU pass opts).DecryptFile A input).2 ≠
        .error CypherError.configError) := by
  have hkey := NewCypher_key numCPU pass opts
  have hkv : aesNewCipher (NewCypher numCPU pass opts).key = .ok () :=
    aesNewCipher_NewCypher numCPU pass opts
  refine ⟨hkey, by rw [hkey, length_MD5HashFromString], ?_, hkv, ?_, ?_, ?_, ?_⟩
  · intro b hb
    rw [hkey] at hb
    exact MD5HashFromString_lower_hex pass b hb
  · intro A nonces data
    simp [Cypher.Encrypt, hkv]
  · intro A data
    simp only [Cypher.Decrypt, hkv]
    match hm : mapME (decryptChunk A (NewCypher numCPU pass opts).key)
        (chunkSplit data (encryptedChunkSize A (NewCypher numCPU pass opts))) with
    | .error e =>
      obtain ⟨x, hx, hfx⟩ := mapME_error_mem _ _ e hm
      have hne : e ≠ .configError :=
        fun he => decryptChunk_ne_configError A _ x (he ▸ hfx)
      simp [hne]
    | .ok pts => simp
  · intro A nonces input
    match input with
    | none => simp [Cypher.EncryptFile]
    | some data => simp [Cypher.EncryptFile, hkv]
  · intro A input
    match input with
    | none => simp [Cypher.DecryptFile]
    | some data =>
      simp only [Cypher.DecryptFile, hkv]
      match hm : mapME (decryptChunk A (NewCypher numCPU pass opts).key)
          (chunkSplit data (encryptedChunkSize A (NewCypher numCPU pass opts))) with
      | .error e =>
        obtain ⟨x, hx, hfx⟩ := mapME_error_mem _ _ e hm
        have hne : e ≠ .configError :=
          fun he => decryptChunk_ne_configError A _ x (he ▸ hfx)
        simp [hne]
      | .ok pts => simp

/-- C10: whenever buffer-mode `Encrypt` returns a non-nil error the
returned byte slice is nil, and independently, whenever buffer-mode
`Decrypt` returns a non-nil error (including a valid-key run failing on
a malformed or unauthentic chunk) the returned byte slice is nil —
never a part of the accumulated output buffer is returned to the caller
alongside an error. -/
theorem c10_error_implies_nil_output (A : AEAD) (c : Cypher) (nonces : ℕ → Bytes)
    (dataE dataD : Bytes) :
    (((c.Encrypt A nonces dataE).2).isSome → (c.Encrypt A nonces dataE).1 = none) ∧
    (((c.Decrypt A dataD).2).isSome → (c.Decrypt A dataD).1 = none) := by
  constructor
  · intro hE
    match hkv : aesNewCipher c.key with
    | .error e => simp [Cypher.Encrypt, hkv]
    | .ok _ => simp [Cypher.Encrypt, hkv] at hE
  · intro hD
    match hkv : aesNewCipher c.key with
    | .error e => simp [Cypher.Decrypt, hkv]
    | .ok _ =>
      match hm : mapME (decryptChunk A c.key) (chunkSplit dataD (encryptedChunkSize A c)) with
      | .error e => simp [Cypher.Decrypt, hkv, hm]
      | .ok pts => simp [Cypher.Decrypt, hkv, hm] at hD

/-- C4 counterexample: a cypher holding a key of invalid length (the Go
zero value has a nil key) does not fail at construction; running
`EncryptFile` on it opens the input and creates the output file first and
only then reports the cipher-construction (key-size) error — so the
failure is neither at construction time nor before I/O, contrary to the
claim. -/
theorem c4_counterexample :
    (Cypher.EncryptFile ⟨[], 1, 1, 1⟩ idealAEAD (fun _ => List.replicate 12 0)
      (some [1])).1 = [FileEvent.openInput, FileEvent.createOutput] ∧
    (Cypher.EncryptFile ⟨[], 1, 1, 1⟩ idealAEAD (fun _ => List.replicate 12 0)
      (some [1])).2 = .error CypherError.configError := by
  exact ⟨rfl, rfl⟩

/-- C4 amended: `NewCypher` performs no validation and cannot fail — the
key it derives always passes the AES key-size check (it is always 32
bytes) — and a cypher whose key length is invalid is rejected only when
an operation runs: in `EncryptFile` the cipher-construction error is
reported after the input file is opened and the output file is
created. -/
theorem c4_validation_only_at_operation_time (numCPU : ℕ) (pass : String)
    (opts : List COption) (c : Cypher) (A : AEAD) (nonces : ℕ → Bytes) (input : Bytes)
    (hbad : c.key.length ≠ 16 ∧ c.key.length ≠ 24 ∧ c.key.length ≠ 32) :
    aesNewCipher (NewCypher numCPU pass opts).key = .ok () ∧
    c.EncryptFile A nonces (some input) =
      ([FileEvent.openInput, FileEvent.createOutput], .error CypherError.configError) := by
  refine ⟨aesNewCipher_NewCypher numCPU pass opts, ?_⟩
  have hkv : aesNewCipher c.key = .error .configError := by
    rw [aesNewCipher, if_neg]
    push_neg
    exact ⟨hbad.1, hbad.2.1, hbad.2.2⟩
  simp [Cypher.EncryptFile, hkv]

/-- C4 amended witness: the empty-key cypher at a concrete input. -/
theorem c4_validation_only_at_operation_time_witness :
    aesNewCipher (NewCypher 4 "secret" []).key = .ok () ∧
    Cypher.EncryptFile ⟨[], 1, 1, 1⟩ idealAEAD (fun _ => []) (some [1]) =
      ([FileEvent.openInput, FileEvent.createOutput], .error CypherError.configError) :=
  c4_validation_only_at_operation_time 4 "secret" [] ⟨[], 1, 1, 1⟩ idealAEAD
    (fun _ => []) [1] (by decide)

/-- C8 counterexample: the builder methods accept invalid values without
any rejection — `WithChunkSize 0` stores a zero chunk size,
`WithNumWorkers 0` stores zero workers, and `WithNumCores` accepts zero
cores — so the configuration does not always satisfy the claimed
invariants and invalid combinations are not rejected. -/
theorem c8_counterexample :
    ((NewCypher 4 "k" []).WithChunkSize 0).ChunkSize = 0 ∧
    ((NewCypher 4 "k" []).WithNumWorkers 0).NumWorkers = 0 ∧
    ((NewCypher 4 "k" []).WithNumCores 4 0).NumCores = 0 :=
  ⟨rfl, rfl, rfl⟩

/-- C8 amended: the defaults `NewCypher` installs do satisfy the claimed
constraints (10 MiB chunks, 10 workers, and all `numCPU` cores — positive
whenever the machine reports at least one CPU), and `WithNumCores` caps
its argument at the available parallelism; but no builder method
validates: `WithChunkSize` and `WithNumWorkers` store any value verbatim
(including zero) and `WithNumCores` stores any value up to the cap
(including zero), so invalid combinations are accepted silently rather
than rejected. -/
theorem c8_defaults_valid_but_setters_unchecked (numCPU : ℕ) (pass : String)
    (h : 0 < numCPU) :
    ((NewCypher numCPU pass []).ChunkSize = 10 * 1024 * 1024 ∧
      0 < (NewCypher numCPU pass []).ChunkSize) ∧
    ((NewCypher numCPU pass []).NumWorkers = 10 ∧
      0 < (NewCypher numCPU pass []).NumWorkers) ∧
    ((NewCypher numCPU pass []).NumCores = numCPU ∧
      0 < (NewCypher numCPU pass []).NumCores ∧
      (NewCypher numCPU pass []).NumCores ≤ numCPU) ∧
    (∀ (c : Cypher) (x : ℕ), (c.WithNumCores numCPU x).NumCores = min x numCPU) ∧
    (∀ (c : Cypher) (x : ℕ), (c.WithChunkSize x).ChunkSize = x) ∧
    (∀ (c : Cypher) (x : ℕ), (c.WithNumWorkers x).NumWorkers = x) := by
  refine ⟨⟨rfl, by norm_num [NewCypher]⟩, ⟨rfl, by norm_num [NewCypher]⟩,
    ⟨rfl, h, Nat.le_refl numCPU⟩, ?_, fun c x => rfl, fun c x => rfl⟩
  intro c x
  rw [Cypher.WithNumCores]
  by_cases hx : x > numCPU
  · simp [hx]
    omega
  · simp [hx]
    omega

/-- C8 amended witness: the defaults on a 4-CPU machine. -/
theorem c8_defaults_valid_but_setters_unchecked_witness :
    (NewCypher 4 "k" []).NumCores = 4 ∧ 0 < (NewCypher 4 "k" []).NumCores ∧
    (NewCypher 4 "k" []).NumCores ≤ 4 :=
  (c8_defaults_valid_but_setters_unchecked 4 "k" (by decide)).2.2.1

end GoCypher
